import Mathlib

/-! Verification of the contribution streak and timeline analyzer of
GremlinGPT-Boost.  The definitions below are a shallow embedding of the
analyzer code in `docs/s.svg/scripts/build-streak.mjs` (namespace
`BuildStreak`) and of the `streaks` helper in
`docs/svg/scripts/generate-crimson-flow.mjs` (namespace `CrimsonFlow`).

Modelling conventions:
* A JS number holding a count is modelled as `Int` (the scripts never
  validate counts, so negative values are representable).
* `new Date(s).getTime()` is modelled by a parameter
  `parse : String → Option Int`, where `none` stands for an Invalid Date
  (NaN time value) and `some t` for a finite time value, measured in days
  (the analyzer never does arithmetic on dates, only comparisons, so the
  unit is irrelevant to it; day units make the spec's "in days" statable).
* A JS `Map` is modelled as an insertion-ordered association list.
* `Array.prototype.sort` (stable since ES2019) is modelled by a stable
  insertion sort `jsSort le` with `le a b` meaning "comparator(a, b) is
  not positive" (a NaN comparator result compares as a tie).
* `Math.round` and the fractional `step` of the frame sampler are
  modelled exactly over `ℚ`; `Math.round x = ⌊x + 1/2⌋`.
-/

namespace BuildStreak

/-- One raw `{ date, count }` record as fetched from the API
(`build-streak.mjs`, `allDays` entries). -/
structure RawSample where
  date : String
  count : Int
deriving DecidableEq, Repr, Inhabited

/-- Models the JS comparison `new Date(s) > now` used by the current-streak
loop: a NaN date compares `false`. -/
def jsDateGt (pd : Option Int) (now : Int) : Bool :=
  match pd with
  | some x => decide (x > now)
  | none => false

/-- Models the sort comparator `(a, b) => new Date(a.date) - new Date(b.date)`
as the relation "a may stay before b", i.e. the comparator result is not a
positive number.  A NaN result (either date invalid) is a tie, hence `true`. -/
def dateLe : Option Int → Option Int → Bool
  | some x, some y => decide (x ≤ y)
  | _, _ => true

/-- `byDate.get(k)` on the insertion-ordered map. -/
def mapGet (m : List (String × Int)) (k : String) : Option Int :=
  (m.find? (fun e => e.1 = k)).map (fun e => e.2)

/-- `byDate.set(k, v)`: overwrite the entry in place if the key is present,
otherwise append at the end (JS `Map` keeps first-insertion key order). -/
def mapSet (m : List (String × Int)) (k : String) (v : Int) : List (String × Int) :=
  match m with
  | [] => [(k, v)]
  | e :: m => if e.1 = k then (k, v) :: m else e :: mapSet m k v

/-- One iteration of the merge loop:
`byDate.set(d.date, (byDate.get(d.date) || 0) + d.count)`.
(`x || 0` agrees with `getD 0`: an absent key gives `undefined || 0 = 0`, and a
stored `0` gives `0 || 0 = 0`.) -/
def byDateStep (m : List (String × Int)) (d : RawSample) : List (String × Int) :=
  mapSet m d.date (((mapGet m d.date).getD 0) + d.count)

/-- The merge loop `for (const d of allDays) byDate.set(...)` over the raw
samples, starting from the empty map. -/
def byDate (raw : List RawSample) : List (String × Int) :=
  raw.foldl byDateStep []

/-- Stable insertion of `a` into `l`: `a` goes in front of the first element
`b` it may precede (`le a b`). -/
def jsInsert (le : α → α → Bool) (a : α) : List α → List α
  | [] => [a]
  | b :: l => if le a b then a :: b :: l else b :: jsInsert le a l

/-- Stable sort, modelling `Array.prototype.sort(cmp)`: for a consistent
comparator every stable sort returns the same list, so insertion sort is a
faithful model. -/
def jsSort (le : α → α → Bool) : List α → List α
  | [] => []
  | a :: l => jsInsert le a (jsSort le l)

/-- The normalization in `build-streak.mjs`:
`const days = [...byDate.entries()].map(([date, count]) => ({date, count})).sort((a,b) => new Date(a.date) - new Date(b.date))`. -/
def normalize (parse : String → Option Int) (raw : List RawSample) : List RawSample :=
  jsSort (fun a b => dateLe (parse a.date) (parse b.date))
    ((byDate raw).map (fun e => { date := e.1, count := e.2 }))

/-- One `{ date, total }` point of the cumulative timeline. -/
structure TimelinePoint where
  date : String
  total : Int
deriving DecidableEq, Repr, Inhabited

/-- The mapped closure of
`const timeline = days.map(d => ({ date: d.date, total: (run += d.count) }))`,
with the running sum threaded explicitly. -/
def timelineGo (run : Int) : List RawSample → List TimelinePoint
  | [] => []
  | d :: rest => { date := d.date, total := run + d.count } :: timelineGo (run + d.count) rest

/-- `timeline` with the initial `let run = 0`. -/
def timeline (days : List RawSample) : List TimelinePoint :=
  timelineGo 0 days

/-- The body of the current-streak loop, on the reversed list (the source
iterates `i` from `days.length - 1` down to `0`):
`if (new Date(days[i].date) > now) continue; if (days[i].count > 0) cs++; else break;`. -/
def csGo (parse : String → Option Int) (now : Int) : List RawSample → Nat
  | [] => 0
  | d :: rest =>
    if jsDateGt (parse d.date) now then csGo parse now rest
    else if d.count > 0 then csGo parse now rest + 1
    else 0

/-- `cs`, the current streak of `build-streak.mjs`. -/
def currentStreak (parse : String → Option Int) (days : List RawSample) (now : Int) : Nat :=
  csGo parse now days.reverse

/-- A recorded streak run `{ start, end, len }` (`end` is a reserved word in
Lean, so the field is named `stop`). -/
structure Run where
  start : String
  stop : String
  len : Nat
deriving DecidableEq, Repr, Inhabited

/-- The mutable state of the longest-streak loop: the `streaks` array pushed
so far, `cur`, `start` (the JS `null` is modelled by `""`, only read when
`cur > 0`), and the previously visited sample `days[i-1]` (`none` before the
first iteration, only read when `cur > 0`). -/
structure ScanState where
  runs : List Run
  cur : Nat
  start : String
  prev : Option RawSample
deriving Repr

/-- `days[i-1].date` as read by the push in the loop body. -/
def prevDate (s : ScanState) : String :=
  (s.prev.map (fun d => d.date)).getD ""

/-- One iteration of the longest-streak loop:
`if (d.count > 0) { if (cur === 0) start = d.date; cur++; }
else if (cur > 0) { streaks.push({start, end: days[i-1].date, len: cur}); cur = 0; start = null; }`. -/
def sStep (s : ScanState) (d : RawSample) : ScanState :=
  if d.count > 0 then
    { s with cur := s.cur + 1, start := if s.cur = 0 then d.date else s.start, prev := some d }
  else if s.cur > 0 then
    { runs := s.runs ++ [{ start := s.start, stop := prevDate s, len := s.cur }],
      cur := 0, start := "", prev := some d }
  else
    { s with prev := some d }

/-- Initial loop state: `const streaks = []; let cur = 0, start = null;`. -/
def sInit : ScanState :=
  { runs := [], cur := 0, start := "", prev := none }

/-- The longest-streak scan including the trailing push
`if (cur > 0) streaks.push({ start, end: days.at(-1).date, len: cur });`. -/
def streaks (days : List RawSample) : List Run :=
  let s := days.foldl sStep sInit
  if s.cur > 0 then
    s.runs ++ [{ start := s.start, stop := (days.getLast?.map (fun d => d.date)).getD "",
                 len := s.cur }]
  else s.runs

/-- The comparator `(a, b) => b.len - a.len` of the top-3 sort, as the
"may stay before" relation: the result is not positive iff `b.len ≤ a.len`. -/
def lenDescLe (a b : Run) : Bool :=
  decide (b.len ≤ a.len)

/-- `const top = [...streaks].sort((a, b) => b.len - a.len).slice(0, 3);`. -/
def top (days : List RawSample) : List Run :=
  (jsSort lenDescLe (streaks days)).take 3

/-- `Math.round`, which rounds half toward positive infinity, modelled
exactly on rationals. -/
def roundJS (q : ℚ) : Int :=
  ⌊q + 1 / 2⌋

/-- `const MAX_FRAMES = 80;`. -/
def MAX_FRAMES : Nat := 80

/-- The frame sampler:
`if (timeline.length <= MAX_FRAMES) return timeline;
const step = (timeline.length - 1) / (MAX_FRAMES - 1);
return Array.from({length: MAX_FRAMES}, (_, i) => timeline[Math.round(i * step)]);`.
The JS index expression is a non-negative number here; an out-of-range index
would yield `undefined`, modelled by `List.getD` with an (unreached) default. -/
def sampleFrames (tl : List TimelinePoint) : List TimelinePoint :=
  if tl.length ≤ MAX_FRAMES then tl
  else
    (List.range MAX_FRAMES).map (fun i : Nat =>
      tl.getD (roundJS ((i : ℚ) * (((tl.length : ℚ) - 1) / ((MAX_FRAMES : ℚ) - 1)))).toNat
        default)

/-- The merged (pre-sort) sample list `[...byDate.entries()].map(([date, count]) => ({date, count}))`. -/
def merged (raw : List RawSample) : List RawSample :=
  (byDate raw).map (fun e => { date := e.1, count := e.2 })

/-- The total count recorded for calendar day `k` in the raw input. -/
def sumCount (raw : List RawSample) (k : String) : Int :=
  ((raw.filter (fun d => d.date = k)).map (fun d => d.count)).sum

/-- The value summed for key `k` in an association-list map. -/
def valAt (m : List (String × Int)) (k : String) : Int :=
  ((m.filter (fun e => e.1 = k)).map (fun e => e.2)).sum

/-- Spec-side predicate: `r` is recorded over a contiguous segment `mid` of
`days` whose samples all have positive count, whose first and last dates are
the run's `start` and `end`, whose length is the run's `len`, and whose two
boundaries are each a `count == 0` sample or an edge of the sequence. -/
def IsRunSegment (days : List RawSample) (r : Run) : Prop :=
  ∃ pre mid post, days = pre ++ mid ++ post ∧ mid ≠ [] ∧
    (∀ d ∈ mid, 0 < d.count) ∧
    mid.head?.map (fun d => d.date) = some r.start ∧
    mid.getLast?.map (fun d => d.date) = some r.stop ∧
    mid.length = r.len ∧
    (∀ z, pre.getLast? = some z → ¬ 0 < z.count) ∧
    (∀ z, post.head? = some z → ¬ 0 < z.count)

/-- A run recorded while scanning the prefix `done`: like `IsRunSegment`,
but the closing boundary is an explicit nonpositive sample that starts
`post`, so the decomposition survives appending further samples. -/
def ClosedRun (done : List RawSample) (r : Run) : Prop :=
  ∃ pre mid post, done = pre ++ mid ++ post ∧ mid ≠ [] ∧
    (∀ d ∈ mid, 0 < d.count) ∧
    mid.head?.map (fun d => d.date) = some r.start ∧
    mid.getLast?.map (fun d => d.date) = some r.stop ∧
    mid.length = r.len ∧
    (∀ z, pre.getLast? = some z → ¬ 0 < z.count) ∧
    (∃ z rest, post = z :: rest ∧ ¬ 0 < z.count)

/-- The loop invariant of the longest-streak scan relating the state to the
consumed prefix `done`: `prev` is the last consumed sample; when no run is
open the last consumed sample (if any) is nonpositive; when a run is open,
`done` splits into a zero-or-edge-bounded prefix followed by the open run,
whose first date is `start` and whose length is `cur`; and every recorded
run is a closed segment of `done`. -/
def StateOK (done : List RawSample) (s : ScanState) : Prop :=
  s.prev = done.getLast? ∧
  (s.cur = 0 → ∀ z, done.getLast? = some z → ¬ 0 < z.count) ∧
  (0 < s.cur → ∃ pre mid, done = pre ++ mid ∧ mid ≠ [] ∧
    (∀ d ∈ mid, 0 < d.count) ∧
    mid.head?.map (fun d => d.date) = some s.start ∧
    mid.length = s.cur ∧
    (∀ z, pre.getLast? = some z → ¬ 0 < z.count)) ∧
  (∀ r ∈ s.runs, ClosedRun done r)

/-- Adjacent samples one calendar day apart under `parse` (dates are measured
in days, so consecutive days differ by 1). -/
abbrev ConsecDates (parse : String → Option Int) (a b : RawSample) : Prop :=
  (parse a.date).isSome ∧ parse b.date = (parse a.date).map (fun x => x + 1)

/-- A date parser on which every string is an Invalid Date. -/
def parseNone : String → Option Int :=
  fun _ => none

/-- A one-record input whose date does not parse. -/
def badRaw : List RawSample :=
  [{ date := "not-a-date", count := 1 }]

/-- A parser for the two-day gapped counterexample: day 1 and day 5. -/
def parseCE : String → Option Int :=
  fun s => if s = "d1" then some 1 else if s = "d5" then some 5 else none

/-- Two positive samples four calendar days apart (days 2, 3 and 4 missing). -/
def gapRaw : List RawSample :=
  [{ date := "d1", count := 1 }, { date := "d5", count := 1 }]

/-- A small concrete parser mapping Jan1 .. Jan5 to day ordinals 1 .. 5,
used to instantiate hypotheses of the claim theorems at concrete inputs. -/
def pJan : String → Option Int :=
  fun s =>
    if s = "Jan1" then some 1 else if s = "Jan2" then some 2 else
    if s = "Jan3" then some 3 else if s = "Jan4" then some 4 else
    if s = "Jan5" then some 5 else none

/-- Claim-side definition, written from the spec's words for `currentStreak`:
drop every sample dated strictly after `now`, then count the trailing block of
`count > 0` samples of what remains. -/
def specCurrentStreak (parse : String → Option Int) (days : List RawSample) (now : Int) : Nat :=
  (((days.filter (fun d => ! jsDateGt (parse d.date) now)).reverse).takeWhile
    (fun d => decide (0 < d.count))).length

end BuildStreak

namespace CrimsonFlow

/-- One iteration of
`for (const d of days) { if (d.count > 0) { curr++; best = Math.max(best, curr); } else curr = 0; }`
on the pair `(curr, best)`. -/
def cbStep (p : Nat × Nat) (d : BuildStreak.RawSample) : Nat × Nat :=
  if d.count > 0 then (p.1 + 1, max p.2 (p.1 + 1)) else (0, p.2)

/-- The backward loop
`let cs = 0; for (let i = days.length - 1; i >= 0 && days[i].count > 0; i--) cs++;`,
on the reversed list. -/
def csTail : List BuildStreak.RawSample → Nat
  | [] => 0
  | d :: rest => if d.count > 0 then csTail rest + 1 else 0

/-- The `streaks` helper of `generate-crimson-flow.mjs`, returning
`{ current, longest }` as a pair. -/
def streaks (days : List BuildStreak.RawSample) : Nat × Nat :=
  (csTail days.reverse, (days.foldl cbStep (0, 0)).2)

end CrimsonFlow

namespace BuildStreak

theorem jsInsert_perm {α : Type _} (le : α → α → Bool) (a : α) (l : List α) :
    (jsInsert le a l).Perm (a :: l) := by
  induction l with
  | nil => exact List.Perm.refl _
  | cons b l ih =>
    rw [jsInsert]
    split
    · exact List.Perm.refl _
    · exact (ih.cons b).trans (List.Perm.swap a b l)

theorem jsSort_perm {α : Type _} (le : α → α → Bool) (l : List α) :
    (jsSort le l).Perm l := by
  induction l with
  | nil => exact List.Perm.refl _
  | cons a l ih =>
    simp only [jsSort]
    exact (jsInsert_perm le a (jsSort le l)).trans (ih.cons a)

theorem pairwise_jsInsert {α : Type _} {P : α → Prop} (le : α → α → Bool)
    (htr : ∀ x y z, P x → P y → P z → le x y = true → le y z = true → le x z = true)
    (hto : ∀ x y, P x → P y → le x y = true ∨ le y x = true)
    (a : α) (ha : P a) (l : List α) (hPl : ∀ x ∈ l, P x)
    (hp : l.Pairwise (fun x y => le x y = true)) :
    (jsInsert le a l).Pairwise (fun x y => le x y = true) := by
  induction l with
  | nil => exact List.pairwise_singleton _ _
  | cons b l ih =>
    rw [jsInsert]
    split
    case isTrue hab =>
      refine List.Pairwise.cons ?_ hp
      intro y hy
      rcases List.mem_cons.1 hy with rfl | hyl
      · exact hab
      · exact htr a b y ha (hPl b (List.mem_cons_self b l))
          (hPl y (List.mem_cons_of_mem b hyl)) hab ((List.pairwise_cons.1 hp).1 y hyl)
    case isFalse hab =>
      have hba : le b a = true := by
        rcases hto a b ha (hPl b (List.mem_cons_self b l)) with h | h
        · exact absurd h hab
        · exact h
      refine List.Pairwise.cons ?_
        (ih (fun x hx => hPl x (List.mem_cons_of_mem b hx)) (List.pairwise_cons.1 hp).2)
      intro y hy
      have hmem : y ∈ a :: l := (jsInsert_perm le a l).mem_iff.1 hy
      rcases List.mem_cons.1 hmem with rfl | hyl
      · exact hba
      · exact (List.pairwise_cons.1 hp).1 y hyl

theorem pairwise_jsSort {α : Type _} {P : α → Prop} (le : α → α → Bool)
    (htr : ∀ x y z, P x → P y → P z → le x y = true → le y z = true → le x z = true)
    (hto : ∀ x y, P x → P y → le x y = true ∨ le y x = true)
    (l : List α) (hPl : ∀ x ∈ l, P x) :
    (jsSort le l).Pairwise (fun x y => le x y = true) := by
  induction l with
  | nil => simp [jsSort]
  | cons a l ih =>
    simp only [jsSort]
    refine pairwise_jsInsert le htr hto a (hPl a (List.mem_cons_self a l)) (jsSort le l)
      (fun x hx => hPl x (List.mem_cons_of_mem a ((jsSort_perm le l).mem_iff.1 hx)))
      (ih (fun x hx => hPl x (List.mem_cons_of_mem a hx)))

theorem filter_jsInsert_pos {α : Type _} (le : α → α → Bool) (p : α → Bool) (a : α)
    (hpa : p a = true) (hmov : ∀ b, p b = true → le a b = true) (l : List α) :
    (jsInsert le a l).filter p = a :: l.filter p := by
  induction l with
  | nil => simp [jsInsert, hpa]
  | cons b l ih =>
    rw [jsInsert]
    split
    case isTrue hab => simp [List.filter_cons, hpa]
    case isFalse hab =>
      have hpb : p b = false := by
        cases hb : p b
        · rfl
        · exact absurd (hmov b hb) hab
      simp [List.filter_cons, hpb, ih]

theorem filter_jsInsert_neg {α : Type _} (le : α → α → Bool) (p : α → Bool) (a : α)
    (hpa : p a = false) (l : List α) :
    (jsInsert le a l).filter p = l.filter p := by
  induction l with
  | nil => simp [jsInsert, hpa]
  | cons b l ih =>
    rw [jsInsert]
    split
    · simp [List.filter_cons, hpa]
    · cases hpb : p b
      · simp [List.filter_cons, hpb, ih]
      · simp [List.filter_cons, hpb, ih]

theorem filter_jsSort {α : Type _} (le : α → α → Bool) (p : α → Bool)
    (hmov : ∀ a b, p a = true → p b = true → le a b = true) (l : List α) :
    (jsSort le l).filter p = l.filter p := by
  induction l with
  | nil => rfl
  | cons a l ih =>
    simp only [jsSort]
    cases hpa : p a
    · rw [filter_jsInsert_neg le p a hpa, ih]
      simp [List.filter_cons, hpa]
    · rw [filter_jsInsert_pos le p a hpa (fun b hb => hmov a b hpa hb), ih]
      simp [List.filter_cons, hpa]

theorem csGo_eq (parse : String → Option Int) (now : Int) (l : List RawSample) :
    csGo parse now l =
      ((l.filter (fun d => ! jsDateGt (parse d.date) now)).takeWhile
        (fun d => decide (0 < d.count))).length := by
  induction l with
  | nil => rfl
  | cons d rest ih =>
    rw [csGo]
    cases hgt : jsDateGt (parse d.date) now
    · by_cases hc : d.count > 0
      · simp [hgt, hc, List.filter_cons, List.takeWhile_cons, ih]
      · simp [hgt, hc, List.filter_cons, List.takeWhile_cons]
    · simp [hgt, List.filter_cons, ih]

/-- C1: `currentStreak` scans from the latest sample backward, skips without
counting and without breaking every sample dated strictly after `now`, stops
at the first `count == 0` sample, and returns the number of consecutive
`count > 0` samples seen before that stop: it equals the spec-side
filter-then-trailing-count description for every sample sequence and
reference instant. -/
theorem currentStreak_matches_spec (parse : String → Option Int)
    (days : List RawSample) (now : Int) :
    currentStreak parse days now = specCurrentStreak parse days now := by
  rw [currentStreak, specCurrentStreak, csGo_eq, List.filter_reverse]

theorem timelineGo_length (l : List RawSample) (r : Int) :
    (timelineGo r l).length = l.length := by
  induction l generalizing r with
  | nil => rfl
  | cons d rest ih => simp [timelineGo, ih]

theorem timelineGo_append (l₁ l₂ : List RawSample) (r : Int) :
    timelineGo r (l₁ ++ l₂) =
      timelineGo r l₁ ++ timelineGo (r + ((l₁.map (fun d => d.count)).sum)) l₂ := by
  induction l₁ generalizing r with
  | nil => simp [timelineGo]
  | cons d rest ih => simp [timelineGo, ih, add_assoc]

theorem timeline_last_total (days : List RawSample) :
    ((timeline days).getLast?.map (fun p => p.total)).getD 0 =
      ((days.map (fun d => d.count)).sum) := by
  rcases List.eq_nil_or_concat days with rfl | ⟨l, d, rfl⟩
  · rfl
  · rw [List.concat_eq_append, timeline, timelineGo_append]
    simp [timelineGo]

/-- C6: `cumulativeTimeline` produces exactly one point per normalized
sample, its last cumulative total equals the sum of the merged counts (the
claim's stated equivalent of the telescoping delta sum), and the empty input
yields the empty timeline. -/
theorem timeline_totals (parse : String → Option Int) (raw : List RawSample) :
    (timeline (normalize parse raw)).length = (normalize parse raw).length ∧
    ((timeline (normalize parse raw)).getLast?.map (fun p => p.total)).getD 0 =
      (((normalize parse raw).map (fun d => d.count)).sum) ∧
    timeline (normalize parse ([] : List RawSample)) = [] := by
  exact ⟨timelineGo_length _ 0, timeline_last_total _, rfl⟩

end BuildStreak

namespace CrimsonFlow

theorem cf_csTail_eq (l : List BuildStreak.RawSample) :
    csTail l = (l.takeWhile (fun d => decide (0 < d.count))).length := by
  induction l with
  | nil => rfl
  | cons d rest ih =>
    rw [csTail]
    by_cases h : d.count > 0
    · simp [List.takeWhile_cons, h, ih]
    · simp [List.takeWhile_cons, h]

theorem cf_step_curr_pos (p : Nat × Nat) (d : BuildStreak.RawSample) (hd : 0 < d.count) :
    (cbStep p d).1 = p.1 + 1 := by
  rw [cbStep, if_pos hd]

theorem cf_step_curr_neg (p : Nat × Nat) (d : BuildStreak.RawSample) (hd : ¬ 0 < d.count) :
    (cbStep p d).1 = 0 := by
  rw [cbStep, if_neg hd]

theorem cf_step_best_pos (p : Nat × Nat) (d : BuildStreak.RawSample) (hd : 0 < d.count) :
    (cbStep p d).2 = max p.2 (p.1 + 1) := by
  rw [cbStep, if_pos hd]

theorem cf_step_best_neg (p : Nat × Nat) (d : BuildStreak.RawSample) (hd : ¬ 0 < d.count) :
    (cbStep p d).2 = p.2 := by
  rw [cbStep, if_neg hd]

theorem cf_step_le (p : Nat × Nat) (d : BuildStreak.RawSample) (_h : p.1 ≤ p.2) :
    (cbStep p d).1 ≤ (cbStep p d).2 := by
  by_cases hd : 0 < d.count
  · rw [cf_step_curr_pos p d hd, cf_step_best_pos p d hd]
    exact Nat.le_max_right _ _
  · rw [cf_step_curr_neg p d hd]
    exact Nat.zero_le _

theorem cf_foldl_le (l : List BuildStreak.RawSample) (p : Nat × Nat) (h : p.1 ≤ p.2) :
    (l.foldl cbStep p).1 ≤ (l.foldl cbStep p).2 := by
  induction l generalizing p with
  | nil => exact h
  | cons d rest ih => exact ih (cbStep p d) (cf_step_le p d h)

theorem cf_foldl_curr (l : List BuildStreak.RawSample) :
    ∀ p : Nat × Nat,
      (l.foldl cbStep p).1 =
        if ∀ d ∈ l, 0 < d.count then p.1 + l.length
        else (l.reverse.takeWhile (fun d => decide (0 < d.count))).length := by
  induction l using List.reverseRecOn with
  | nil => intro p; simp
  | append_singleton l d ih =>
    intro p
    rw [List.foldl_append, List.foldl_cons, List.foldl_nil]
    by_cases hd : 0 < d.count
    · rw [cf_step_curr_pos _ d hd, ih p]
      by_cases hall : ∀ x ∈ l, 0 < x.count
      · have hall' : ∀ x ∈ l ++ [d], 0 < x.count := by
          intro x hx
          rcases List.mem_append.1 hx with hx | hx
          · exact hall x hx
          · rcases List.mem_singleton.1 hx with rfl
            exact hd
        rw [if_pos hall, if_pos hall']
        simp only [List.length_append, List.length_singleton]
        omega
      · have hall' : ¬ ∀ x ∈ l ++ [d], 0 < x.count := by
          intro hcon
          exact hall (fun x hx => hcon x (List.mem_append_left _ hx))
        rw [if_neg hall, if_neg hall']
        rw [List.reverse_append]
        simp only [List.reverse_singleton, List.singleton_append, List.takeWhile_cons]
        simp [hd]
    · rw [cf_step_curr_neg _ d hd]
      have hall' : ¬ ∀ x ∈ l ++ [d], 0 < x.count := by
        intro hcon
        exact hd (hcon d (List.mem_append_right _ (List.mem_singleton.2 rfl)))
      rw [if_neg hall']
      rw [List.reverse_append]
      simp [List.takeWhile_cons, hd]

theorem cf_foldl_best_zero (l : List BuildStreak.RawSample) :
    ∀ p : Nat × Nat,
      ((l.foldl cbStep p).2 = 0 ↔ p.2 = 0 ∧ ∀ d ∈ l, ¬ 0 < d.count) := by
  induction l with
  | nil => intro p; simp
  | cons d rest ih =>
    intro p
    rw [List.foldl_cons]
    by_cases hd : 0 < d.count
    · constructor
      · intro h
        have h2 := (ih (cbStep p d)).1 h
        have hb : (cbStep p d).2 = 0 := h2.1
        rw [cf_step_best_pos p d hd] at hb
        have := Nat.le_max_right p.2 (p.1 + 1)
        omega
      · intro h
        exact absurd hd (h.2 d (List.mem_cons_self d rest))
    · rw [ih (cbStep p d), cf_step_best_neg p d hd]
      constructor
      · intro h
        refine ⟨h.1, ?_⟩
        intro x hx
        rcases List.mem_cons.1 hx with rfl | hx
        · exact hd
        · exact h.2 x hx
      · intro h
        exact ⟨h.1, fun x hx => h.2 x (List.mem_cons_of_mem d hx)⟩

/-- C10: in the crimson-flow `streaks` helper the current streak never
exceeds the longest streak, and both are zero exactly when the day
sequence's trailing positive run is empty and it has no positive run at all
(i.e. every count is nonpositive). -/
theorem cf_current_le_longest (days : List BuildStreak.RawSample) :
    (streaks days).1 ≤ (streaks days).2 ∧
    ((streaks days).1 = 0 ∧ (streaks days).2 = 0 ↔
      days.reverse.takeWhile (fun d => decide (0 < d.count)) = [] ∧
      ∀ d ∈ days, ¬ 0 < d.count) := by
  have hcur : (days.foldl cbStep (0, 0)).1 = csTail days.reverse := by
    rw [cf_foldl_curr days (0, 0), cf_csTail_eq]
    by_cases hall : ∀ d ∈ days, 0 < d.count
    · rw [if_pos hall]
      have : days.reverse.takeWhile (fun d => decide (0 < d.count)) = days.reverse := by
        rw [List.takeWhile_eq_self_iff]
        intro x hx
        simpa using hall x (List.mem_reverse.1 hx)
      rw [this]
      simp
    · rw [if_neg hall]
  constructor
  · show csTail days.reverse ≤ (days.foldl cbStep (0, 0)).2
    rw [← hcur]
    exact cf_foldl_le days (0, 0) (Nat.le_refl 0)
  · show (csTail days.reverse = 0 ∧ (days.foldl cbStep (0, 0)).2 = 0 ↔ _)
    rw [cf_csTail_eq, List.length_eq_zero, cf_foldl_best_zero days (0, 0)]
    simp

end CrimsonFlow

namespace BuildStreak

theorem valAt_nil (k : String) : valAt [] k = 0 := rfl

theorem valAt_cons (e : String × Int) (m : List (String × Int)) (k : String) :
    valAt (e :: m) k = if e.1 = k then e.2 + valAt m k else valAt m k := by
  by_cases h : e.1 = k
  · simp [valAt, List.filter_cons, h]
  · simp [valAt, List.filter_cons, h]

theorem filter_key_eq_nil (m : List (String × Int)) (k : String)
    (h : k ∉ m.map Prod.fst) : m.filter (fun e => e.1 = k) = [] := by
  rw [List.filter_eq_nil_iff]
  intro e he hk
  exact h (List.mem_map.2 ⟨e, he, by simpa using hk⟩)

theorem valAt_of_not_mem (m : List (String × Int)) (k : String)
    (h : k ∉ m.map Prod.fst) : valAt m k = 0 := by
  rw [valAt, filter_key_eq_nil m k h]
  rfl

theorem keys_mapSet (m : List (String × Int)) (k : String) (v : Int) (k' : String) :
    (k' ∈ (mapSet m k v).map Prod.fst ↔ k' ∈ m.map Prod.fst ∨ k' = k) := by
  induction m with
  | nil => simp [mapSet, eq_comm]
  | cons e m ih =>
    rw [mapSet]
    split
    case isTrue h =>
      subst h
      simp [List.mem_cons, eq_comm]
      tauto
    case isFalse h =>
      simp only [List.map_cons, List.mem_cons, ih]
      tauto

theorem keys_nodup_mapSet (m : List (String × Int)) (k : String) (v : Int)
    (hnd : (m.map Prod.fst).Nodup) : ((mapSet m k v).map Prod.fst).Nodup := by
  induction m with
  | nil => simp [mapSet]
  | cons e m ih =>
    rw [List.map_cons, List.nodup_cons] at hnd
    rw [mapSet]
    split
    case isTrue h =>
      rw [List.map_cons, List.nodup_cons]
      exact ⟨h ▸ hnd.1, hnd.2⟩
    case isFalse h =>
      rw [List.map_cons, List.nodup_cons]
      refine ⟨?_, ih hnd.2⟩
      intro hmem
      rcases (keys_mapSet m k v e.1).1 hmem with hm | hk
      · exact hnd.1 hm
      · exact h hk

theorem valAt_mapSet_self (m : List (String × Int)) (k : String) (v : Int)
    (hnd : (m.map Prod.fst).Nodup) : valAt (mapSet m k v) k = v := by
  induction m with
  | nil => simp [mapSet, valAt_cons, valAt_nil]
  | cons e m ih =>
    rw [List.map_cons, List.nodup_cons] at hnd
    rw [mapSet]
    split
    case isTrue h =>
      rw [valAt_cons, if_pos rfl, valAt_of_not_mem m k (h ▸ hnd.1)]
      omega
    case isFalse h =>
      rw [valAt_cons, if_neg h]
      exact ih hnd.2

theorem valAt_mapSet_other (m : List (String × Int)) (k : String) (v : Int)
    (k' : String) (hk : k ≠ k') : valAt (mapSet m k v) k' = valAt m k' := by
  induction m with
  | nil => simp [mapSet, valAt_cons, valAt_nil, hk]
  | cons e m ih =>
    rw [mapSet]
    split
    case isTrue h =>
      rw [valAt_cons, if_neg hk, valAt_cons, if_neg (h ▸ hk)]
    case isFalse h =>
      rw [valAt_cons, valAt_cons, ih]

theorem mapGet_getD (m : List (String × Int)) (k : String)
    (hnd : (m.map Prod.fst).Nodup) : (mapGet m k).getD 0 = valAt m k := by
  induction m with
  | nil => rfl
  | cons e m ih =>
    rw [List.map_cons, List.nodup_cons] at hnd
    by_cases h : e.1 = k
    · rw [mapGet, List.find?_cons_of_pos _ (by simpa using h)]
      rw [valAt_cons, if_pos h, valAt_of_not_mem m k (h ▸ hnd.1)]
      simp
    · rw [mapGet, List.find?_cons_of_neg _ (by simpa using h)]
      rw [valAt_cons, if_neg h]
      exact ih hnd.2

theorem valAt_of_mem (m : List (String × Int)) (e : String × Int)
    (hnd : (m.map Prod.fst).Nodup) (he : e ∈ m) : valAt m e.1 = e.2 := by
  induction m with
  | nil => simp at he
  | cons f m ih =>
    rw [List.map_cons, List.nodup_cons] at hnd
    rcases List.mem_cons.1 he with rfl | he
    · rw [valAt_cons, if_pos rfl, valAt_of_not_mem m e.1 hnd.1]
      omega
    · have hne : f.1 ≠ e.1 := by
        intro hcon
        exact hnd.1 (hcon ▸ List.mem_map.2 ⟨e, he, rfl⟩)
      rw [valAt_cons, if_neg hne]
      exact ih hnd.2 he

theorem keys_nodup_byDate_aux (raw : List RawSample) :
    ∀ m : List (String × Int), (m.map Prod.fst).Nodup →
      ((raw.foldl byDateStep m).map Prod.fst).Nodup := by
  induction raw with
  | nil => intro m hnd; exact hnd
  | cons d raw ih =>
    intro m hnd
    rw [List.foldl_cons]
    exact ih (byDateStep m d) (keys_nodup_mapSet m d.date _ hnd)

theorem byDate_keys_nodup (raw : List RawSample) :
    ((byDate raw).map Prod.fst).Nodup :=
  keys_nodup_byDate_aux raw [] (by simp)

theorem sumCount_cons (d : RawSample) (raw : List RawSample) (k : String) :
    sumCount (d :: raw) k = (if d.date = k then d.count else 0) + sumCount raw k := by
  by_cases h : d.date = k
  · simp [sumCount, List.filter_cons, h]
  · simp [sumCount, List.filter_cons, h]

theorem valAt_byDate_aux (raw : List RawSample) :
    ∀ m : List (String × Int), (m.map Prod.fst).Nodup → ∀ k,
      valAt (raw.foldl byDateStep m) k = valAt m k + sumCount raw k := by
  induction raw with
  | nil => intro m _ k; simp [sumCount]
  | cons d raw ih =>
    intro m hnd k
    rw [List.foldl_cons, ih (byDateStep m d) (keys_nodup_mapSet m d.date _ hnd) k,
      sumCount_cons]
    have hv : valAt (byDateStep m d) k = valAt m k + (if d.date = k then d.count else 0) := by
      rw [byDateStep]
      by_cases hk : d.date = k
      · subst hk
        rw [valAt_mapSet_self _ _ _ hnd, mapGet_getD _ _ hnd]
        simp
      · rw [valAt_mapSet_other _ _ _ _ hk, if_neg hk]
        omega
    rw [hv]
    omega

theorem valAt_byDate (raw : List RawSample) (k : String) :
    valAt (byDate raw) k = sumCount raw k := by
  rw [byDate, valAt_byDate_aux raw [] (by simp) k, valAt_nil]
  omega

theorem mem_keys_byDate_aux (raw : List RawSample) :
    ∀ m : List (String × Int), ∀ k,
      (k ∈ (raw.foldl byDateStep m).map Prod.fst ↔
        k ∈ m.map Prod.fst ∨ k ∈ raw.map (fun d => d.date)) := by
  induction raw with
  | nil => intro m k; simp
  | cons d raw ih =>
    intro m k
    rw [List.foldl_cons, ih (byDateStep m d) k]
    rw [byDateStep]
    rw [keys_mapSet]
    simp only [List.map_cons, List.mem_cons]
    tauto

theorem mem_keys_byDate (raw : List RawSample) (k : String) :
    k ∈ (byDate raw).map Prod.fst ↔ k ∈ raw.map (fun d => d.date) := by
  rw [byDate, mem_keys_byDate_aux raw [] k]
  simp

theorem mem_merged (raw : List RawSample) (s : RawSample) :
    s ∈ merged raw ↔
      s.date ∈ raw.map (fun d => d.date) ∧ s.count = sumCount raw s.date := by
  constructor
  · intro hs
    rcases List.mem_map.1 hs with ⟨e, he, hmk⟩
    have hdate : s.date = e.1 := by rw [← hmk]
    have hcount : s.count = e.2 := by rw [← hmk]
    constructor
    · rw [hdate, ← mem_keys_byDate raw]
      exact List.mem_map.2 ⟨e, he, rfl⟩
    · rw [hcount, hdate, ← valAt_byDate raw e.1]
      exact (valAt_of_mem (byDate raw) e (byDate_keys_nodup raw) he).symm
  · intro hs
    have hk : s.date ∈ (byDate raw).map Prod.fst := (mem_keys_byDate raw s.date).2 hs.1
    rcases List.mem_map.1 hk with ⟨e, he, hke⟩
    refine List.mem_map.2 ⟨e, he, ?_⟩
    have he2 : e.2 = s.count := by
      rw [hs.2, ← valAt_byDate raw s.date, ← hke]
      exact (valAt_of_mem (byDate raw) e (byDate_keys_nodup raw) he).symm
    cases s with
    | mk sd sc =>
      simp only [RawSample.mk.injEq]
      exact ⟨hke, he2⟩

theorem merged_dates_nodup (raw : List RawSample) :
    ((merged raw).map (fun d => d.date)).Nodup := by
  have h : (merged raw).map (fun d => d.date) = (byDate raw).map Prod.fst := by
    rw [merged, List.map_map]
    rfl
  rw [h]
  exact byDate_keys_nodup raw

theorem normalize_eq_sort (parse : String → Option Int) (raw : List RawSample) :
    normalize parse raw =
      jsSort (fun a b => dateLe (parse a.date) (parse b.date)) (merged raw) := rfl

theorem normalize_perm_merged (parse : String → Option Int) (raw : List RawSample) :
    (normalize parse raw).Perm (merged raw) := by
  rw [normalize_eq_sort]
  exact jsSort_perm _ _

theorem mem_normalize (parse : String → Option Int) (raw : List RawSample)
    (s : RawSample) :
    s ∈ normalize parse raw ↔
      s.date ∈ raw.map (fun d => d.date) ∧ s.count = sumCount raw s.date := by
  rw [(normalize_perm_merged parse raw).mem_iff]
  exact mem_merged raw s

theorem normalize_dates_nodup (parse : String → Option Int) (raw : List RawSample) :
    ((normalize parse raw).map (fun d => d.date)).Nodup := by
  have hp : ((normalize parse raw).map (fun d => d.date)).Perm
      ((merged raw).map (fun d => d.date)) :=
    (normalize_perm_merged parse raw).map _
  exact hp.nodup_iff.2 (merged_dates_nodup raw)

end BuildStreak

namespace BuildStreak

/-- C2 counterexample: on an input whose only date does not parse
(`new Date` would yield an Invalid Date), the analyzer raises nothing and
still produces a cumulative total and a current streak — no
`InvalidSampleError` exists anywhere in the code. -/
theorem invalid_date_produces_values :
    normalize parseNone badRaw = badRaw ∧
    timeline (normalize parseNone badRaw) = [{ date := "not-a-date", total := 1 }] ∧
    currentStreak parseNone (normalize parseNone badRaw) 0 = 1 := by
  exact ⟨rfl, rfl, rfl⟩

/-- C2 (amended): normalization never fails and performs no validation: for
every parser (including ones on which dates fail to parse) and every input,
it returns exactly the merged samples — a permutation of one sample per
distinct input date with that date's summed count — and timeline and streak
values are then produced from them. -/
theorem normalize_is_total (parse : String → Option Int) (raw : List RawSample) :
    (normalize parse raw).Perm (merged raw) ∧
    (∀ s ∈ normalize parse raw, s.count = sumCount raw s.date) ∧
    (timeline (normalize parse raw)).length = (merged raw).length := by
  refine ⟨normalize_perm_merged parse raw, ?_, ?_⟩
  · intro s hs
    exact ((mem_normalize parse raw s).1 hs).2
  · rw [timeline, timelineGo_length]
    exact (normalize_perm_merged parse raw).length_eq

/-- C7: normalization merges every group of duplicate dates into a single
sample carrying the group's summed count, before any streak or timeline
computation; the resulting dates are unique, cover exactly the input dates,
and (whenever every date parses) are sorted ascending by parsed date. -/
theorem normalize_merges_and_sorts (parse : String → Option Int)
    (raw : List RawSample) (hsome : ∀ d ∈ raw, (parse d.date).isSome) :
    ((normalize parse raw).map (fun d => d.date)).Nodup ∧
    (normalize parse raw).Pairwise
      (fun a b => ∀ x y, parse a.date = some x → parse b.date = some y → x ≤ y) ∧
    (∀ s ∈ normalize parse raw, s.count = sumCount raw s.date) ∧
    (∀ s ∈ normalize parse raw, s.date ∈ raw.map (fun d => d.date)) ∧
    (∀ d ∈ raw, ∃ s ∈ normalize parse raw, s.date = d.date) := by
  have hmemdate : ∀ s ∈ normalize parse raw, s.date ∈ raw.map (fun d => d.date) :=
    fun s hs => ((mem_normalize parse raw s).1 hs).1
  have hP : ∀ s ∈ merged raw, (parse s.date).isSome := by
    intro s hs
    rcases List.mem_map.1 ((mem_merged raw s).1 hs).1 with ⟨d, hd, hdd⟩
    rw [← hdd]
    exact hsome d hd
  refine ⟨normalize_dates_nodup parse raw, ?_, ?_, hmemdate, ?_⟩
  · have hpw : (normalize parse raw).Pairwise
        (fun a b => dateLe (parse a.date) (parse b.date) = true) := by
      rw [normalize_eq_sort]
      refine pairwise_jsSort (P := fun s => (parse s.date).isSome) _ ?_ ?_ (merged raw) hP
      · intro x y z hx hy hz hxy hyz
        rcases Option.isSome_iff_exists.1 hx with ⟨a, ha⟩
        rcases Option.isSome_iff_exists.1 hy with ⟨b, hb⟩
        rcases Option.isSome_iff_exists.1 hz with ⟨c, hc⟩
        rw [ha, hb] at hxy
        rw [hb, hc] at hyz
        rw [ha, hc]
        simp only [dateLe, decide_eq_true_eq] at hxy hyz ⊢
        omega
      · intro x y hx hy
        rcases Option.isSome_iff_exists.1 hx with ⟨a, ha⟩
        rcases Option.isSome_iff_exists.1 hy with ⟨b, hb⟩
        rw [ha, hb]
        simp only [dateLe, decide_eq_true_eq]
        omega
    refine hpw.imp ?_
    intro a b h x y hx hy
    rw [hx, hy] at h
    simpa [dateLe] using h
  · intro s hs
    exact ((mem_normalize parse raw s).1 hs).2
  · intro d hd
    refine ⟨{ date := d.date, count := sumCount raw d.date }, ?_, rfl⟩
    exact (mem_normalize parse raw _).2 ⟨List.mem_map.2 ⟨d, hd, rfl⟩, rfl⟩

/-- Witness for C7 at a concrete duplicate-date input. -/
theorem normalize_merges_and_sorts_witness :
    (∀ d ∈ ([{ date := "Jan2", count := 2 }, { date := "Jan1", count := 1 },
              { date := "Jan2", count := 3 }] : List RawSample), (pJan d.date).isSome) ∧
    ((normalize pJan [{ date := "Jan2", count := 2 }, { date := "Jan1", count := 1 },
                      { date := "Jan2", count := 3 }]).map (fun d => d.date)).Nodup :=
  ⟨by decide,
   (normalize_merges_and_sorts pJan
     [{ date := "Jan2", count := 2 }, { date := "Jan1", count := 1 },
      { date := "Jan2", count := 3 }] (by decide)).1⟩

end BuildStreak

namespace BuildStreak

theorem streaks_eq (days : List RawSample) :
    streaks days =
      if (days.foldl sStep sInit).cur > 0 then
        (days.foldl sStep sInit).runs ++
          [{ start := (days.foldl sStep sInit).start,
             stop := (days.getLast?.map (fun d => d.date)).getD "",
             len := (days.foldl sStep sInit).cur }]
      else (days.foldl sStep sInit).runs := rfl

theorem sFold_all_nonpos (l : List RawSample) :
    ∀ s : ScanState, (∀ d ∈ l, ¬ 0 < d.count) → s.cur = 0 →
      (l.foldl sStep s).runs = s.runs ∧ (l.foldl sStep s).cur = 0 := by
  induction l with
  | nil => intro s _ h0; exact ⟨rfl, h0⟩
  | cons d l ih =>
    intro s hall h0
    rw [List.foldl_cons]
    have hd : ¬ 0 < d.count := hall d (List.mem_cons_self d l)
    have hstep : sStep s d = { s with prev := some d } := by
      rw [sStep, if_neg hd, if_neg (by omega)]
    rw [hstep]
    exact ih _ (fun x hx => hall x (List.mem_cons_of_mem d hx)) h0

theorem streaks_nil_of_all_nonpos (days : List RawSample)
    (hall : ∀ d ∈ days, ¬ 0 < d.count) : streaks days = [] := by
  obtain ⟨hr, hc⟩ := sFold_all_nonpos days sInit hall rfl
  rw [streaks_eq, if_neg (by omega), hr]
  rfl

/-- C5: the top list is the run list sorted descending by length
(non-increasing lengths), stably (every group of equal-length runs keeps
its original chronological order), truncated to the first 3 entries
(`topN = 3` in the code); if no sample has positive count it is empty. -/
theorem top_sorted_stable_truncated (days : List RawSample) :
    top days = (jsSort lenDescLe (streaks days)).take 3 ∧
    (jsSort lenDescLe (streaks days)).Pairwise (fun a b => b.len ≤ a.len) ∧
    (∀ k : Nat, (jsSort lenDescLe (streaks days)).filter (fun r => decide (r.len = k)) =
      (streaks days).filter (fun r => decide (r.len = k))) ∧
    ((∀ d ∈ days, ¬ 0 < d.count) → top days = []) := by
  refine ⟨rfl, ?_, ?_, ?_⟩
  · have hpw : (jsSort lenDescLe (streaks days)).Pairwise
        (fun a b => lenDescLe a b = true) := by
      refine pairwise_jsSort (P := fun _ => True) _ ?_ ?_ (streaks days) (fun _ _ => trivial)
      · intro x y z _ _ _ hxy hyz
        simp only [lenDescLe, decide_eq_true_eq] at hxy hyz ⊢
        omega
      · intro x y _ _
        simp only [lenDescLe, decide_eq_true_eq]
        omega
    refine hpw.imp ?_
    intro a b h
    simpa [lenDescLe] using h
  · intro k
    refine filter_jsSort lenDescLe _ ?_ (streaks days)
    intro a b ha hb
    simp only [decide_eq_true_eq] at ha hb
    simp only [lenDescLe, decide_eq_true_eq]
    omega
  · intro hall
    rw [top, streaks_nil_of_all_nonpos days hall]
    rfl

/-- Witness for C5 at a concrete all-zero input. -/
theorem top_sorted_stable_truncated_witness :
    (∀ d ∈ ([{ date := "Jan1", count := 0 }] : List RawSample), ¬ 0 < d.count) ∧
    top [{ date := "Jan1", count := 0 }] = [] :=
  ⟨by decide,
   (top_sorted_stable_truncated [{ date := "Jan1", count := 0 }]).2.2.2 (by decide)⟩

end BuildStreak

namespace BuildStreak

theorem sStep_pos (s : ScanState) (d : RawSample) (hd : 0 < d.count) :
    sStep s d = { s with
                  cur := s.cur + 1,
                  start := (if s.cur = 0 then d.date else s.start),
                  prev := some d } := by
  rw [sStep, if_pos hd]

theorem sStep_close (s : ScanState) (d : RawSample) (hd : ¬ 0 < d.count) (hc : 0 < s.cur) :
    sStep s d = { runs := s.runs ++ [{ start := s.start, stop := prevDate s, len := s.cur }],
                  cur := 0, start := "", prev := some d } := by
  rw [sStep, if_neg hd, if_pos hc]

theorem sStep_skip (s : ScanState) (d : RawSample) (hd : ¬ 0 < d.count) (hc : ¬ 0 < s.cur) :
    sStep s d = { s with prev := some d } := by
  rw [sStep, if_neg hd, if_neg hc]

theorem closedRun_extend (done ext : List RawSample) (r : Run)
    (h : ClosedRun done r) : ClosedRun (done ++ ext) r := by
  obtain ⟨pre, mid, post, hdec, hne, hpos, hhd, hlast, hlen, hpre, z, rest, hpost, hz⟩ := h
  refine ⟨pre, mid, post ++ ext, ?_, hne, hpos, hhd, hlast, hlen, hpre, z, rest ++ ext, ?_, hz⟩
  · rw [hdec, List.append_assoc]
  · rw [hpost]
    rfl

theorem stateOK_step (done : List RawSample) (s : ScanState) (d : RawSample)
    (h : StateOK done s) : StateOK (done ++ [d]) (sStep s d) := by
  obtain ⟨hprev, hzero, hopen, hruns⟩ := h
  by_cases hd : 0 < d.count
  · rw [sStep_pos s d hd]
    refine ⟨?_, ?_, ?_, ?_⟩
    · show some d = (done ++ [d]).getLast?
      rw [List.getLast?_concat]
    · intro h0
      exact absurd (show s.cur + 1 = 0 from h0) (by omega)
    · intro _
      by_cases h0 : s.cur = 0
      · refine ⟨done, [d], by simp, by simp, ?_, ?_, ?_, hzero h0⟩
        · intro x hx
          rcases List.mem_singleton.1 hx with rfl
          exact hd
        · show ([d].head?.map (fun d => d.date)) = some (if s.cur = 0 then d.date else s.start)
          rw [if_pos h0]
          rfl
        · show [d].length = s.cur + 1
          rw [h0]
          rfl
      · obtain ⟨pre, mid, hdec, hne, hpos, hhd, hlen, hpre⟩ := hopen (by omega)
        obtain ⟨a, t, rfl⟩ := List.exists_cons_of_ne_nil hne
        refine ⟨pre, (a :: t) ++ [d], ?_, by simp, ?_, ?_, ?_, hpre⟩
        · rw [hdec, List.append_assoc]
        · intro x hx
          rcases List.mem_append.1 hx with hx | hx
          · exact hpos x hx
          · rcases List.mem_singleton.1 hx with rfl
            exact hd
        · show (((a :: t) ++ [d]).head?.map (fun d => d.date)) =
            some (if s.cur = 0 then d.date else s.start)
          rw [if_neg h0]
          simp only [List.cons_append, List.head?_cons] at hhd ⊢
          exact hhd
        · show ((a :: t) ++ [d]).length = s.cur + 1
          simp only [List.length_append, List.length_cons, List.length_nil] at hlen ⊢
          omega
    · intro r hr
      exact closedRun_extend done [d] r (hruns r hr)
  · by_cases hc : 0 < s.cur
    · rw [sStep_close s d hd hc]
      refine ⟨?_, ?_, ?_, ?_⟩
      · show some d = (done ++ [d]).getLast?
        rw [List.getLast?_concat]
      · intro _ z hz
        rw [List.getLast?_concat] at hz
        obtain rfl := Option.some.inj hz
        exact hd
      · intro h0
        exact absurd (show (0 : Nat) < 0 from h0) (by omega)
      · intro r hr
        rcases List.mem_append.1 hr with hr | hr
        · exact closedRun_extend done [d] r (hruns r hr)
        · rcases List.mem_singleton.1 hr with rfl
          obtain ⟨pre, mid, hdec, hne, hpos, hhd, hlen, hpre⟩ := hopen hc
          rcases List.eq_nil_or_concat mid with rfl | ⟨mid', m, rfl⟩
          · exact absurd rfl hne
          · rw [List.concat_eq_append] at *
            have hdone : done.getLast? = some m := by
              rw [hdec, ← List.append_assoc, List.getLast?_concat]
            have hprevd : prevDate s = m.date := by
              rw [prevDate, hprev, hdone]
              rfl
            refine ⟨pre, mid' ++ [m], [d], ?_, by simp, hpos, hhd, ?_, hlen, hpre,
              d, [], rfl, hd⟩
            · rw [hdec]
            · rw [List.getLast?_concat, hprevd]
              rfl
    · rw [sStep_skip s d hd hc]
      refine ⟨?_, ?_, ?_, ?_⟩
      · show some d = (done ++ [d]).getLast?
        rw [List.getLast?_concat]
      · intro _ z hz
        rw [List.getLast?_concat] at hz
        obtain rfl := Option.some.inj hz
        exact hd
      · intro h0
        exact absurd h0 hc
      · intro r hr
        exact closedRun_extend done [d] r (hruns r hr)

theorem stateOK_foldl (l : List RawSample) :
    ∀ (done : List RawSample) (s : ScanState), StateOK done s →
      StateOK (done ++ l) (l.foldl sStep s) := by
  induction l with
  | nil => intro done s h; simpa using h
  | cons d l ih =>
    intro done s h
    rw [List.foldl_cons]
    have h2 := ih (done ++ [d]) (sStep s d) (stateOK_step done s d h)
    rw [List.append_assoc] at h2
    simpa using h2

theorem stateOK_sInit : StateOK [] sInit := by
  refine ⟨rfl, ?_, ?_, ?_⟩
  · intro _ z hz
    simp at hz
  · intro h0
    exact absurd (show (0 : Nat) < 0 from h0) (by omega)
  · intro r hr
    simp [sInit] at hr

theorem stateOK_days (days : List RawSample) :
    StateOK days (days.foldl sStep sInit) := by
  have h := stateOK_foldl days [] sInit stateOK_sInit
  simpa using h

theorem closedRun_isRunSegment (days : List RawSample) (r : Run)
    (h : ClosedRun days r) : IsRunSegment days r := by
  obtain ⟨pre, mid, post, hdec, hne, hpos, hhd, hlast, hlen, hpre, z, rest, hpost, hz⟩ := h
  refine ⟨pre, mid, post, hdec, hne, hpos, hhd, hlast, hlen, hpre, ?_⟩
  intro z' hz'
  rw [hpost] at hz'
  obtain rfl := Option.some.inj hz'
  exact hz

theorem streaks_isRunSegment (days : List RawSample) :
    ∀ r ∈ streaks days, IsRunSegment days r := by
  intro r hr
  obtain ⟨hprev, hzero, hopen, hruns⟩ := stateOK_days days
  rw [streaks_eq] at hr
  by_cases hc : 0 < (days.foldl sStep sInit).cur
  · rw [if_pos hc] at hr
    rcases List.mem_append.1 hr with hr | hr
    · exact closedRun_isRunSegment days r (hruns r hr)
    · rcases List.mem_singleton.1 hr with rfl
      obtain ⟨pre, mid, hdec, hne, hpos, hhd, hlen, hpre⟩ := hopen hc
      rcases List.eq_nil_or_concat mid with rfl | ⟨mid', m, rfl⟩
      · exact absurd rfl hne
      · rw [List.concat_eq_append] at *
        have hdone : days.getLast? = some m := by
          rw [hdec, ← List.append_assoc, List.getLast?_concat]
        refine ⟨pre, mid' ++ [m], [], ?_, by simp, hpos, hhd, ?_, hlen, hpre, ?_⟩
        · rw [hdec, List.append_nil]
        · rw [List.getLast?_concat, hdone]
          rfl
        · intro z hz
          simp at hz
  · rw [if_neg hc] at hr
    exact closedRun_isRunSegment days r (hruns r hr)

theorem chain_consec_ends (parse : String → Option Int) :
    ∀ (mid : List RawSample), mid.Chain' (ConsecDates parse) →
      ∀ a b x, mid.head? = some a → mid.getLast? = some b → parse a.date = some x →
        parse b.date = some (x + ((mid.length : Int) - 1)) := by
  intro mid
  induction mid with
  | nil =>
    intro _ a b x h
    cases h
  | cons c t ih =>
    intro hch a b x hhd hlast hx
    rw [List.head?_cons] at hhd
    obtain rfl := Option.some.inj hhd
    cases t with
    | nil =>
      simp only [List.getLast?_singleton] at hlast
      obtain rfl := Option.some.inj hlast
      rw [hx]
      norm_num
    | cons e t' =>
      rw [List.chain'_cons] at hch
      have hex : parse e.date = some (x + 1) := by
        rw [hch.1.2, hx]
        rfl
      have hrec := ih hch.2 e b (x + 1) rfl (by rw [← List.getLast?_cons_cons]; exact hlast) hex
      rw [hrec]
      congr 1
      simp only [List.length_cons]
      push_cast
      ring

/-- C3 (amended): every run recorded by the longest-streak scan sits over a
contiguous all-positive segment of the sequence whose two boundaries are
each a `count == 0` sample or a sequence edge (this part holds for every
sequence, gaps included), and whenever the sequence is gap-free — adjacent
samples one calendar day apart — the run satisfies the length invariant:
parsed end date = parsed start date + (len − 1), i.e.
len = (end − start in days) + 1. -/
theorem streaks_run_invariants (parse : String → Option Int) (days : List RawSample)
    (hch : days.Chain' (ConsecDates parse)) :
    ∀ r ∈ streaks days, IsRunSegment days r ∧
      ∀ x, parse r.start = some x → parse r.stop = some (x + ((r.len : Int) - 1)) := by
  intro r hr
  have hseg := streaks_isRunSegment days r hr
  refine ⟨hseg, ?_⟩
  intro x hx
  obtain ⟨pre, mid, post, hdec, hne, hpos, hhd, hlast, hlen, hpre, hpost⟩ := hseg
  have hchmid : mid.Chain' (ConsecDates parse) := by
    rw [hdec] at hch
    exact hch.left_of_append.right_of_append
  cases hm : mid.head? with
  | none =>
    rw [List.head?_eq_none_iff] at hm
    exact absurd hm hne
  | some a =>
    cases hb : mid.getLast? with
    | none =>
      rw [List.getLast?_eq_none_iff] at hb
      exact absurd hb hne
    | some b =>
      rw [hm] at hhd
      rw [hb] at hlast
      have hadate : a.date = r.start := Option.some.inj hhd
      have hbdate : b.date = r.stop := Option.some.inj hlast
      have hmain := chain_consec_ends parse mid hchmid a b x hm hb (by rw [hadate]; exact hx)
      rw [hbdate, hlen] at hmain
      exact hmain

/-- Witness for the amended C3 at a gap-free concrete input. -/
theorem streaks_run_invariants_witness :
    ([{ date := "Jan1", count := 1 }, { date := "Jan2", count := 0 },
      { date := "Jan3", count := 2 }] : List RawSample).Chain' (ConsecDates pJan) ∧
    ({ start := "Jan1", stop := "Jan1", len := 1 } : Run) ∈
      streaks [{ date := "Jan1", count := 1 }, { date := "Jan2", count := 0 },
               { date := "Jan3", count := 2 }] ∧
    IsRunSegment [{ date := "Jan1", count := 1 }, { date := "Jan2", count := 0 },
                  { date := "Jan3", count := 2 }] { start := "Jan1", stop := "Jan1", len := 1 } :=
  have hch : ([{ date := "Jan1", count := 1 }, { date := "Jan2", count := 0 },
      { date := "Jan3", count := 2 }] : List RawSample).Chain' (ConsecDates pJan) :=
    List.chain'_cons.2 ⟨⟨rfl, rfl⟩, List.chain'_cons.2 ⟨⟨rfl, rfl⟩, List.chain'_singleton _⟩⟩
  ⟨hch, by decide,
   (streaks_run_invariants pJan
     [{ date := "Jan1", count := 1 }, { date := "Jan2", count := 0 },
      { date := "Jan3", count := 2 }] hch
     { start := "Jan1", stop := "Jan1", len := 1 } (by decide)).1⟩

/-- C3 counterexample: on a normalized gapped sequence (days 1 and 5, both
positive) the recorded run has length 2, but (end − start in days) + 1 = 5:
the claimed unconditional length invariant fails on sequences with gaps. -/
theorem gapped_run_length_mismatch :
    streaks (normalize parseCE gapRaw) =
      [{ start := "d1", stop := "d5", len := 2 }] ∧
    parseCE "d1" = some 1 ∧ parseCE "d5" = some 5 ∧
    ((5 : Int) - 1) + 1 ≠ (2 : Int) := by
  refine ⟨by decide, rfl, rfl, by decide⟩

/-- C4: when the final sample of the sequence has positive count, the run
still open at end-of-sequence is closed and recorded: the run list is
nonempty, its last entry ends at the final sample's date, and that entry
covers exactly the maximal trailing all-positive segment, carrying that
segment's first date as its start. -/
theorem final_run_recorded (days : List RawSample) (lastd : RawSample)
    (hl : days.getLast? = some lastd) (hc : 0 < lastd.count) :
    ∃ r, (streaks days).getLast? = some r ∧ r.stop = lastd.date ∧ 0 < r.len ∧
      ∃ pre mid, days = pre ++ mid ∧ mid ≠ [] ∧ (∀ d ∈ mid, 0 < d.count) ∧
        mid.head?.map (fun d => d.date) = some r.start ∧ mid.length = r.len ∧
        (∀ z, pre.getLast? = some z → ¬ 0 < z.count) := by
  obtain ⟨hprev, hzero, hopen, hruns⟩ := stateOK_days days
  have hcur : 0 < (days.foldl sStep sInit).cur := by
    by_contra hcon
    have h0 : (days.foldl sStep sInit).cur = 0 := by omega
    exact hzero h0 lastd hl hc
  obtain ⟨pre, mid, hdec, hne, hpos, hhd, hlen, hpre⟩ := hopen hcur
  refine ⟨{ start := (days.foldl sStep sInit).start,
            stop := (days.getLast?.map (fun d => d.date)).getD "",
            len := (days.foldl sStep sInit).cur }, ?_, ?_, ?_, pre, mid, hdec, hne, hpos,
          hhd, hlen, hpre⟩
  · rw [streaks_eq, if_pos hcur, List.getLast?_concat]
  · rw [hl]
    rfl
  · exact hcur

/-- Witness for C4 at a concrete input ending in a single-day run with no
trailing zero sample. -/
theorem final_run_recorded_witness :
    ([{ date := "Jan1", count := 0 }, { date := "Jan2", count := 2 }] :
        List RawSample).getLast? = some { date := "Jan2", count := 2 } ∧
    (0 : Int) < ({ date := "Jan2", count := 2 } : RawSample).count ∧
    ∃ r, (streaks [{ date := "Jan1", count := 0 },
                   { date := "Jan2", count := 2 }]).getLast? = some r ∧
      r.stop = ({ date := "Jan2", count := 2 } : RawSample).date :=
  ⟨by decide, by decide,
   match final_run_recorded [{ date := "Jan1", count := 0 }, { date := "Jan2", count := 2 }]
     { date := "Jan2", count := 2 } (by decide) (by decide) with
   | ⟨r, h1, h2, _, _⟩ => ⟨r, h1, h2⟩⟩

end BuildStreak

namespace BuildStreak

theorem normalize_all_some (parse : String → Option Int) (raw : List RawSample)
    (hsome : ∀ d ∈ raw, (parse d.date).isSome) :
    ∀ s ∈ normalize parse raw, (parse s.date).isSome := by
  intro s hs
  rcases List.mem_map.1 ((mem_normalize parse raw s).1 hs).1 with ⟨d, hd, hdd⟩
  rw [← hdd]
  exact hsome d hd

theorem normalize_pairwise_dateLe (parse : String → Option Int) (raw : List RawSample)
    (hsome : ∀ d ∈ raw, (parse d.date).isSome) :
    (normalize parse raw).Pairwise
      (fun a b => dateLe (parse a.date) (parse b.date) = true) := by
  rw [normalize_eq_sort]
  refine pairwise_jsSort (P := fun s => (parse s.date).isSome) _ ?_ ?_ (merged raw) ?_
  · intro x y z hx hy hz hxy hyz
    rcases Option.isSome_iff_exists.1 hx with ⟨a, ha⟩
    rcases Option.isSome_iff_exists.1 hy with ⟨b, hb⟩
    rcases Option.isSome_iff_exists.1 hz with ⟨c, hc⟩
    rw [ha, hb] at hxy
    rw [hb, hc] at hyz
    rw [ha, hc]
    simp only [dateLe, decide_eq_true_eq] at hxy hyz ⊢
    omega
  · intro x y hx hy
    rcases Option.isSome_iff_exists.1 hx with ⟨a, ha⟩
    rcases Option.isSome_iff_exists.1 hy with ⟨b, hb⟩
    rw [ha, hb]
    simp only [dateLe, decide_eq_true_eq]
    omega
  · intro s hs
    rcases List.mem_map.1 ((mem_merged raw s).1 hs).1 with ⟨d, hd, hdd⟩
    rw [← hdd]
    exact hsome d hd

theorem normalize_pairwise_lt (parse : String → Option Int) (raw : List RawSample)
    (hsome : ∀ d ∈ raw, (parse d.date).isSome)
    (hinj : ∀ da ∈ raw.map (fun d => d.date), ∀ db ∈ raw.map (fun d => d.date),
      parse da = parse db → da = db) :
    (normalize parse raw).Pairwise
      (fun a b => ∃ x y, parse a.date = some x ∧ parse b.date = some y ∧ x < y) := by
  have h1 := normalize_pairwise_dateLe parse raw hsome
  have h2 : (normalize parse raw).Pairwise (fun a b => a.date ≠ b.date) := by
    have hnd := normalize_dates_nodup parse raw
    rw [List.Nodup, List.pairwise_map] at hnd
    exact hnd
  refine List.Pairwise.imp_of_mem ?_ (h1.and h2)
  intro a b ha hb hab
  obtain ⟨x, hx⟩ := Option.isSome_iff_exists.1 (normalize_all_some parse raw hsome a ha)
  obtain ⟨y, hy⟩ := Option.isSome_iff_exists.1 (normalize_all_some parse raw hsome b hb)
  refine ⟨x, y, hx, hy, ?_⟩
  have hle : x ≤ y := by
    have hd := hab.1
    rw [hx, hy] at hd
    simpa [dateLe] using hd
  have hne : x ≠ y := by
    intro hcon
    apply hab.2
    refine hinj a.date ((mem_normalize parse raw a).1 ha).1
      b.date ((mem_normalize parse raw b).1 hb).1 ?_
    rw [hx, hy, hcon]
  omega

theorem normalize_perm_eq (parse : String → Option Int) (raw₁ raw₂ : List RawSample)
    (hp : raw₁.Perm raw₂)
    (hsome : ∀ d ∈ raw₁, (parse d.date).isSome)
    (hinj : ∀ da ∈ raw₁.map (fun d => d.date), ∀ db ∈ raw₁.map (fun d => d.date),
      parse da = parse db → da = db) :
    normalize parse raw₁ = normalize parse raw₂ := by
  have hsome₂ : ∀ d ∈ raw₂, (parse d.date).isSome :=
    fun d hd => hsome d (hp.mem_iff.2 hd)
  have hinj₂ : ∀ da ∈ raw₂.map (fun d => d.date), ∀ db ∈ raw₂.map (fun d => d.date),
      parse da = parse db → da = db :=
    fun da hda db hdb => hinj da ((hp.map _).mem_iff.2 hda) db ((hp.map _).mem_iff.2 hdb)
  have hmp : (merged raw₁).Perm (merged raw₂) := by
    refine (List.perm_ext_iff_of_nodup ?_ ?_).2 ?_
    · exact (merged_dates_nodup raw₁).of_map
    · exact (merged_dates_nodup raw₂).of_map
    · intro s
      rw [mem_merged, mem_merged]
      have hdq : s.date ∈ raw₁.map (fun d => d.date) ↔ s.date ∈ raw₂.map (fun d => d.date) :=
        (hp.map _).mem_iff
    
      have hsq : sumCount raw₁ s.date = sumCount raw₂ s.date := by
        rw [sumCount, sumCount]
        exact ((hp.filter _).map _).sum_eq
      rw [hdq, hsq]
  have hperm : (normalize parse raw₁).Perm (normalize parse raw₂) :=
    ((normalize_perm_merged parse raw₁).trans hmp).trans
      (normalize_perm_merged parse raw₂).symm
  haveI : IsAntisymm RawSample
      (fun a b => ∃ x y, parse a.date = some x ∧ parse b.date = some y ∧ x < y) := by
    constructor
    rintro a b ⟨x, y, hx, hy, hxy⟩ ⟨y', x', hy', hx', hyx⟩
    rw [hy] at hy'
    rw [hx] at hx'
    obtain rfl := Option.some.inj hy'
    obtain rfl := Option.some.inj hx'
    omega
  exact List.eq_of_perm_of_sorted hperm
    (normalize_pairwise_lt parse raw₁ hsome hinj)
    (normalize_pairwise_lt parse raw₂ hsome₂ hinj₂)

/-- C8: `currentStreak` is idempotent under permutation of the raw input
order: deduplication and sorting happen internally, so for every valid input
collection (every date parses, and distinct date strings parse to distinct
instants) every permutation yields exactly the same current streak. -/
theorem currentStreak_perm_invariant (parse : String → Option Int)
    (raw₁ raw₂ : List RawSample) (now : Int) (hp : raw₁.Perm raw₂)
    (hsome : ∀ d ∈ raw₁, (parse d.date).isSome)
    (hinj : ∀ da ∈ raw₁.map (fun d => d.date), ∀ db ∈ raw₁.map (fun d => d.date),
      parse da = parse db → da = db) :
    currentStreak parse (normalize parse raw₁) now =
      currentStreak parse (normalize parse raw₂) now := by
  rw [normalize_perm_eq parse raw₁ raw₂ hp hsome hinj]

/-- Witness for C8 at a concrete two-sample input and its swap. -/
theorem currentStreak_perm_invariant_witness :
    ([{ date := "Jan2", count := 0 }, { date := "Jan1", count := 2 }] :
        List RawSample).Perm
      [{ date := "Jan1", count := 2 }, { date := "Jan2", count := 0 }] ∧
    (∀ d ∈ ([{ date := "Jan2", count := 0 }, { date := "Jan1", count := 2 }] :
        List RawSample), (pJan d.date).isSome) ∧
    currentStreak pJan
        (normalize pJan [{ date := "Jan2", count := 0 }, { date := "Jan1", count := 2 }]) 5 =
      currentStreak pJan
        (normalize pJan [{ date := "Jan1", count := 2 }, { date := "Jan2", count := 0 }]) 5 :=
  ⟨List.Perm.swap _ _ _, by decide,
   currentStreak_perm_invariant pJan
     [{ date := "Jan2", count := 0 }, { date := "Jan1", count := 2 }]
     [{ date := "Jan1", count := 2 }, { date := "Jan2", count := 0 }] 5
     (List.Perm.swap _ _ _) (by decide) (by decide)⟩

end BuildStreak

namespace BuildStreak

theorem roundJS_int (z : Int) : roundJS (z : ℚ) = z := by
  rw [roundJS]
  refine Int.floor_eq_iff.2 ⟨?_, ?_⟩
  · linarith
  · linarith

theorem roundJS_nonneg (q : ℚ) (h : 0 ≤ q) : 0 ≤ roundJS q := by
  rw [roundJS]
  refine Int.le_floor.2 ?_
  push_cast
  linarith

theorem roundJS_le_int (q : ℚ) (z : Int) (h : q ≤ (z : ℚ)) : roundJS q ≤ z := by
  rw [roundJS]
  have h2 : ⌊q + 1 / 2⌋ < z + 1 := by
    refine Int.floor_lt.2 ?_
    push_cast
    linarith
  omega

theorem getD_append_singleton {α : Type _} (l : List α) (a : α) (dflt : α) :
    (l ++ [a]).getD l.length dflt = a := by
  induction l with
  | nil => rfl
  | cons b l ih => simp only [List.cons_append, List.length_cons, List.getD_cons_succ, ih]

theorem head?_eq_getD_zero {α : Type _} (l : List α) (h : l ≠ []) (dflt : α) :
    l.head? = some (l.getD 0 dflt) := by
  cases l with
  | nil => exact absurd rfl h
  | cons a l => rfl

theorem getLast?_eq_getD_pred {α : Type _} (l : List α) (h : l ≠ []) (dflt : α) :
    l.getLast? = some (l.getD (l.length - 1) dflt) := by
  rcases List.eq_nil_or_concat l with rfl | ⟨l', a, rfl⟩
  · exact absurd rfl h
  · rw [List.concat_eq_append, List.getLast?_concat]
    have hlen : (l' ++ [a]).length - 1 = l'.length := by
      simp
    rw [hlen, getD_append_singleton]

/-- C9: the frame sampler is total and endpoint-preserving: a timeline with
at most 80 points is returned unchanged; otherwise the sample has exactly 80
entries, every computed index `Math.round(i * (n-1)/79)` for `0 ≤ i < 80` is
non-negative and within bounds of the timeline, the first sampled entry is
the timeline's first point, and the last sampled entry is the timeline's
last point. -/
theorem sampleFrames_safe (tl : List TimelinePoint) :
    (tl.length ≤ MAX_FRAMES → sampleFrames tl = tl) ∧
    (MAX_FRAMES < tl.length →
      (sampleFrames tl).length = MAX_FRAMES ∧
      (∀ i, i < MAX_FRAMES →
        0 ≤ roundJS ((i : ℚ) * (((tl.length : ℚ) - 1) / ((MAX_FRAMES : ℚ) - 1))) ∧
        (roundJS ((i : ℚ) * (((tl.length : ℚ) - 1) / ((MAX_FRAMES : ℚ) - 1)))).toNat <
          tl.length) ∧
      (sampleFrames tl).head? = tl.head? ∧
      (sampleFrames tl).getLast? = tl.getLast?) := by
  constructor
  · intro h
    rw [sampleFrames, if_pos h]
  · intro h
    have hn : ¬ tl.length ≤ MAX_FRAMES := not_le.2 h
    have htl : tl ≠ [] := by
      intro hcon
      rw [hcon] at h
      simp [MAX_FRAMES] at h
    have hstep : (0 : ℚ) ≤ ((tl.length : ℚ) - 1) / ((MAX_FRAMES : ℚ) - 1) := by
      have h1 : (1 : ℚ) ≤ (tl.length : ℚ) := by
        have : 1 ≤ tl.length := by
          rw [MAX_FRAMES] at h
          omega
        exact_mod_cast this
      have h2 : (0 : ℚ) < (MAX_FRAMES : ℚ) - 1 := by
        rw [MAX_FRAMES]
        norm_num
      exact div_nonneg (by linarith) (le_of_lt h2)
    have hbound : ∀ i : Nat, i < MAX_FRAMES →
        (0 : ℚ) ≤ (i : ℚ) * (((tl.length : ℚ) - 1) / ((MAX_FRAMES : ℚ) - 1)) ∧
        (i : ℚ) * (((tl.length : ℚ) - 1) / ((MAX_FRAMES : ℚ) - 1)) ≤ (tl.length : ℚ) - 1 := by
      intro i hi
      constructor
      · exact mul_nonneg (by positivity) hstep
      · have hi79 : (i : ℚ) ≤ ((MAX_FRAMES : ℚ) - 1) := by
          rw [MAX_FRAMES] at hi ⊢
          have hi' : i ≤ 79 := by omega
          have hc : (i : ℚ) ≤ (79 : ℚ) := by exact_mod_cast hi'
          push_cast
          linarith
        calc (i : ℚ) * (((tl.length : ℚ) - 1) / ((MAX_FRAMES : ℚ) - 1))
            ≤ ((MAX_FRAMES : ℚ) - 1) * (((tl.length : ℚ) - 1) / ((MAX_FRAMES : ℚ) - 1)) :=
              mul_le_mul_of_nonneg_right hi79 hstep
          _ = (tl.length : ℚ) - 1 := by
              rw [mul_comm]
              refine div_mul_cancel₀ _ ?_
              rw [MAX_FRAMES]
              norm_num
    have hidx : ∀ i : Nat, i < MAX_FRAMES →
        0 ≤ roundJS ((i : ℚ) * (((tl.length : ℚ) - 1) / ((MAX_FRAMES : ℚ) - 1))) ∧
        (roundJS ((i : ℚ) * (((tl.length : ℚ) - 1) / ((MAX_FRAMES : ℚ) - 1)))).toNat <
          tl.length := by
      intro i hi
      obtain ⟨h0, h1⟩ := hbound i hi
      have hr0 := roundJS_nonneg _ h0
      have hr1 : roundJS ((i : ℚ) * (((tl.length : ℚ) - 1) / ((MAX_FRAMES : ℚ) - 1))) ≤
          (tl.length : ℤ) - 1 := by
        refine roundJS_le_int _ _ ?_
        push_cast
        linarith
      constructor
      · exact hr0
      · omega
    rw [sampleFrames, if_neg hn]
    refine ⟨by simp, hidx, ?_, ?_⟩
    · have hr : List.range MAX_FRAMES = 0 :: (List.range 79).map Nat.succ := rfl
      rw [hr]
      simp only [List.map_cons, List.head?_cons]
      have hz : ((0 : Nat) : ℚ) * (((tl.length : ℚ) - 1) / ((MAX_FRAMES : ℚ) - 1)) = 0 := by
        norm_num
      rw [hz]
      have hr0 : roundJS 0 = 0 := by
        have h00 := roundJS_int 0
        rw [Int.cast_zero] at h00
        exact h00
      rw [hr0]
      exact (head?_eq_getD_zero tl htl default).symm
    · have hr : List.range MAX_FRAMES = List.range 79 ++ [79] := rfl
      rw [hr, List.map_append, List.map_singleton, List.getLast?_concat]
      have hq : ((79 : Nat) : ℚ) * (((tl.length : ℚ) - 1) / ((MAX_FRAMES : ℚ) - 1)) =
          (tl.length : ℚ) - 1 := by
        have h79 : ((MAX_FRAMES : ℚ) - 1) = 79 := by
          rw [MAX_FRAMES]
          norm_num
        rw [h79, mul_comm]
        push_cast
        exact div_mul_cancel₀ _ (by norm_num)
      rw [hq]
      have hrint : roundJS ((tl.length : ℚ) - 1) = (tl.length : ℤ) - 1 := by
        have h1 := roundJS_int ((tl.length : ℤ) - 1)
        have h2 : (((tl.length : ℤ) - 1 : ℤ) : ℚ) = (tl.length : ℚ) - 1 := by
          push_cast
          ring
        rw [h2] at h1
        exact h1
      rw [hrint]
      have htn : ((tl.length : ℤ) - 1).toNat = tl.length - 1 := by
        rw [MAX_FRAMES] at h
        omega
      rw [htn]
      exact (getLast?_eq_getD_pred tl htl default).symm

/-- Witness for C9 at a concrete 81-point timeline. -/
theorem sampleFrames_safe_witness :
    MAX_FRAMES < (List.replicate 81 (default : TimelinePoint)).length ∧
    (sampleFrames (List.replicate 81 (default : TimelinePoint))).length = MAX_FRAMES :=
  ⟨by simp [MAX_FRAMES], ((sampleFrames_safe (List.replicate 81 default)).2
    (by simp [MAX_FRAMES])).1⟩

end BuildStreak
